import Mathlib

/-!
Formal model of the utility library `zol/util.py` of the pythseq/zol
comparative-genomics toolkit, together with theorems about the behaviour of
its functions.

Modelling conventions:
* Python strings are modelled as `List Char` wherever character-level
  computation matters (sanitization, tab-splitting, leaf names); plain
  identifiers and paths that are only compared or concatenated are `String`.
* Python floats are modelled as `ℚ`.
* Functions that can raise an exception (and hence produce no output) return
  `Option`; `none` models the exception / no-output path.
* External library calls (patristic tree distance via ete3, linear
  regression via scipy, filesystem checks) are passed in as explicit
  function parameters.
-/

/- ------------------------------------------------------------------ -/
/- cleanUpSampleName (util.py lines 24-29)                             -/
/- ------------------------------------------------------------------ -/

/-- One Python `str.replace(a, b)` call where the pattern is a single
character: every occurrence of `a` is replaced by the char list `b`. -/
def creplace (a : Char) (b : List Char) (s : List Char) : List Char :=
  s.flatMap (fun c => if c = a then b else [c])

/-- The chain of `str.replace` calls of `cleanUpSampleName`, applied in the
source's order (innermost `creplace` first, i.e. `'#'` is replaced first). -/
def cleanUpSampleName (s : List Char) : List Char :=
  creplace ',' [] (creplace ']' [] (creplace '[' [] (creplace '\\' []
    (creplace '/' [] (creplace ')' [] (creplace '(' [] (creplace '-' ['_']
      (creplace '=' ['_'] (creplace '\'' ['_'] (creplace '"' ['_']
        (creplace '|' ['_'] (creplace ':' ['_'] (creplace ' ' ['_']
          (creplace ';' ['_'] (creplace ':' ['_'] (creplace '*' ['_']
            (creplace '#' [] s)))))))))))))))))

lemma creplace_append (a : Char) (b : List Char) (s t : List Char) :
    creplace a b (s ++ t) = creplace a b s ++ creplace a b t := by
  simp [creplace]

lemma cleanUpSampleName_append (s t : List Char) :
    cleanUpSampleName (s ++ t) = cleanUpSampleName s ++ cleanUpSampleName t := by
  simp [cleanUpSampleName, creplace_append]

lemma cleanUpSampleName_single (c : Char) :
    cleanUpSampleName (cleanUpSampleName [c]) = cleanUpSampleName [c] := by
  by_cases h1 : c = '#'
  · subst h1; decide
  by_cases h2 : c = '*'
  · subst h2; decide
  by_cases h3 : c = ':'
  · subst h3; decide
  by_cases h4 : c = ';'
  · subst h4; decide
  by_cases h5 : c = ' '
  · subst h5; decide
  by_cases h6 : c = '|'
  · subst h6; decide
  by_cases h7 : c = '"'
  · subst h7; decide
  by_cases h8 : c = '\''
  · subst h8; decide
  by_cases h9 : c = '='
  · subst h9; decide
  by_cases h10 : c = '-'
  · subst h10; decide
  by_cases h11 : c = '('
  · subst h11; decide
  by_cases h12 : c = ')'
  · subst h12; decide
  by_cases h13 : c = '/'
  · subst h13; decide
  by_cases h14 : c = '\\'
  · subst h14; decide
  by_cases h15 : c = '['
  · subst h15; decide
  by_cases h16 : c = ']'
  · subst h16; decide
  by_cases h17 : c = ','
  · subst h17; decide
  have hc : cleanUpSampleName [c] = [c] := by
    simp [cleanUpSampleName, creplace, h1, h2, h3, h4, h5, h6, h7, h8, h9, h10,
      h11, h12, h13, h14, h15, h16, h17]
  rw [hc, hc]

/-- C7: sample-name sanitization is idempotent — applying
`cleanUpSampleName` twice yields the same result as applying it once, for
every input — and the concrete example `"My Sample#1 (test)"` sanitizes to
`"My_Sample1_test"`. -/
theorem cleanUpSampleName_idempotent :
    (∀ s : List Char, cleanUpSampleName (cleanUpSampleName s) = cleanUpSampleName s) ∧
    cleanUpSampleName
        ['M', 'y', ' ', 'S', 'a', 'm', 'p', 'l', 'e', '#', '1', ' ', '(', 't', 'e', 's', 't', ')']
      = ['M', 'y', '_', 'S', 'a', 'm', 'p', 'l', 'e', '1', '_', 't', 'e', 's', 't'] := by
  constructor
  · intro s
    induction s with
    | nil => decide
    | cons c s ih =>
      have hcons : cleanUpSampleName (c :: s) =
          cleanUpSampleName [c] ++ cleanUpSampleName s := by
        have : (c :: s) = [c] ++ s := rfl
        rw [this, cleanUpSampleName_append]
      rw [hcons, cleanUpSampleName_append, cleanUpSampleName_single, ih]
  · decide

/- ------------------------------------------------------------------ -/
/- chunks (util.py lines 898-904)                                      -/
/- ------------------------------------------------------------------ -/

/-- The `chunks` generator: successive `n`-sized slices `lst[i:i+n]` for
`i = 0, n, 2n, …` (the Python loop `for i in range(0, len(lst), n)`).
Defined for `n = 0` as the empty list (the Python generator would raise
`ValueError` on `range` step 0; only `n > 0` is specified). -/
def chunks {α : Type} : List α → ℕ → List (List α)
  | _, 0 => []
  | [], _ + 1 => []
  | x :: xs, n + 1 => (x :: xs).take (n + 1) :: chunks (xs.drop n) (n + 1)
termination_by l _ => l.length
decreasing_by
  simp only [List.length_drop, List.length_cons]
  omega

lemma chunks_nil {α : Type} (n : ℕ) : chunks ([] : List α) n = [] := by
  cases n <;> simp [chunks]

lemma chunks_flatten {α : Type} :
    ∀ (m : ℕ) (lst : List α) (n : ℕ), lst.length ≤ m → 0 < n →
      (chunks lst n).flatten = lst := by
  intro m
  induction m with
  | zero =>
    intro lst n hlen _
    have : lst = [] := List.length_eq_zero.mp (Nat.le_zero.mp hlen)
    subst this
    simp [chunks_nil]
  | succ m ih =>
    intro lst n hlen hn
    match lst, n with
    | [], n + 1 => simp [chunks]
    | x :: xs, n + 1 =>
      have hdrop : (xs.drop n).length ≤ m := by
        simp only [List.length_cons] at hlen
        simp only [List.length_drop]
        omega
      have ihh := ih (xs.drop n) (n + 1) hdrop (Nat.succ_pos n)
      simp only [chunks, List.flatten_cons, ihh]
      have : xs.drop n = (x :: xs).drop (n + 1) := rfl
      rw [this, List.take_append_drop]

lemma chunks_sizes {α : Type} :
    ∀ (m : ℕ) (lst : List α) (n : ℕ), lst.length ≤ m → 0 < n →
      ∀ c ∈ (chunks lst n).dropLast, c.length = n := by
  intro m
  induction m with
  | zero =>
    intro lst n hlen _
    have : lst = [] := List.length_eq_zero.mp (Nat.le_zero.mp hlen)
    subst this
    simp [chunks_nil]
  | succ m ih =>
    intro lst n hlen hn
    match lst, n with
    | [], n + 1 => simp [chunks]
    | x :: xs, n + 1 =>
      intro c hc
      simp only [chunks] at hc
      rcases hrest : chunks (xs.drop n) (n + 1) with _ | ⟨r, rs⟩
      · rw [hrest] at hc
        simp at hc
      · rw [hrest] at hc
        rw [List.dropLast_cons_of_ne_nil (by simp)] at hc
        rcases List.mem_cons.mp hc with hc1 | hc2
        · subst hc1
          have hne : xs.drop n ≠ [] := by
            intro hnil
            rw [hnil] at hrest
            simp [chunks_nil] at hrest
          have hlen2 : n + 1 ≤ (x :: xs).length := by
            have := List.length_pos.mpr hne
            simp only [List.length_drop] at this
            simp only [List.length_cons]
            omega
          simp only [List.length_take, List.length_cons]
          simp only [List.length_cons] at hlen2
          omega
        · have hdrop : (xs.drop n).length ≤ m := by
            simp only [List.length_cons] at hlen
            simp only [List.length_drop]
            omega
          exact ih (xs.drop n) (n + 1) hdrop (Nat.succ_pos n) c (by rw [hrest]; exact hc2)

/-- C10: for every list and chunk size `n > 0`, concatenating the chunks in
order reproduces the list exactly, and every chunk except possibly the last
has length exactly `n`. -/
theorem chunks_spec {α : Type} (lst : List α) (n : ℕ) (h : 0 < n) :
    (chunks lst n).flatten = lst ∧
    ∀ c ∈ (chunks lst n).dropLast, c.length = n :=
  ⟨chunks_flatten lst.length lst n le_rfl h,
   chunks_sizes lst.length lst n le_rfl h⟩

/-- Witness for C10 at the concrete list `[1,2,3,4,5]` with `n = 2`. -/
theorem chunks_spec_witness :
    (0 : ℕ) < 2 ∧
    ((chunks [1, 2, 3, 4, 5] 2).flatten = [1, 2, 3, 4, 5] ∧
      ∀ c ∈ (chunks [(1 : ℕ), 2, 3, 4, 5] 2).dropLast, c.length = 2) :=
  ⟨by decide, chunks_spec [1, 2, 3, 4, 5] 2 (by decide)⟩

/- ------------------------------------------------------------------ -/
/- createGenbank (util.py lines 63-170)                                -/
/- ------------------------------------------------------------------ -/

/-- A parsed feature: its type string and its exon segments, each a
1-based inclusive `(start, end, direction)` triple as the source computes
them from the location string. -/
structure GFeature where
  ftype : String
  coords : List (ℤ × ℤ × String)
deriving DecidableEq

/-- An output feature of the pruning step: type plus rewritten locations
`(zero-based start, end, strand)`. -/
structure PrunedFeature where
  ftype : String
  locs : List (ℤ × ℤ × ℤ)
deriving DecidableEq

def listMinZ : List ℤ → ℤ
  | [] => 0
  | x :: xs => xs.foldl min x

def listMaxZ : List ℤ → ℤ
  | [] => 0
  | x :: xs => xs.foldl max x

/-- Nonemptiness of `set(range(a, b+1)) ∩ set(range(c, d+1))` for the
inclusive integer ranges `[a,b]` and `[c,d]`. -/
def rangesOverlap (a b c d : ℤ) : Bool :=
  decide (max a c ≤ min b d)

/-- The per-feature body of `createGenbank`: `none` when the feature is
dropped, otherwise the rewritten feature.  `start_coord` is the window
start as supplied by the caller; the source clamps it with
`max(start_coord, 1)` before rewriting coordinates, but the window set
used by the intersection tests is built from the unclamped value. -/
def pruneFeature (start_coord end_coord : ℤ) (f : GFeature) : Option PrunedFeature :=
  let startC := max start_coord 1
  let fstart := listMinZ (f.coords.map (fun t => t.1))
  let fend := listMaxZ (f.coords.map (fun t => t.2.1))
  if rangesOverlap fstart fend start_coord end_coord then
    let fls := f.coords.filterMap (fun t =>
      let sc := t.1
      let ec := t.2.1
      let dc := t.2.2
      if rangesOverlap sc ec start_coord end_coord then
        if ec > end_coord ∧ f.ftype = "CDS" then none
        else
          let updated_end := if ec > end_coord then end_coord - startC + 1 else ec - startC + 1
          if sc < startC ∧ f.ftype = "CDS" then none
          else
            let updated_start := if sc < startC then 1 else sc - startC + 1
            some (updated_start - 1, updated_end, if dc = "-" then (-1 : ℤ) else 1)
      else none)
    if fls.length > 0 then some ⟨f.ftype, fls⟩ else none
  else none

/-- The feature-pruning pass of `createGenbank` over the feature list of the
selected scaffold record. -/
def createGenbank (start_coord end_coord : ℤ) (features : List GFeature) :
    List PrunedFeature :=
  features.filterMap (pruneFeature start_coord end_coord)

/-- The boundary policy as the specification words it: a feature is kept only
if its overall span intersects the window; a segment is kept only if it
intersects the window; a segment whose end exceeds the right boundary or
whose start precedes the left boundary is dropped entirely when the feature
is a `CDS` and clipped to the boundary otherwise; a feature with zero
surviving segments is dropped. -/
def pruneFeatureSpec (start_coord end_coord : ℤ) (f : GFeature) : Option PrunedFeature :=
  let startC := max start_coord 1
  let fstart := listMinZ (f.coords.map (fun t => t.1))
  let fend := listMaxZ (f.coords.map (fun t => t.2.1))
  if rangesOverlap fstart fend start_coord end_coord then
    let fls := f.coords.filterMap (fun t =>
      let sc := t.1
      let ec := t.2.1
      let dc := t.2.2
      if rangesOverlap sc ec start_coord end_coord then
        if f.ftype = "CDS" ∧ (ec > end_coord ∨ sc < startC) then none
        else
          some (max sc startC - startC, min ec end_coord - startC + 1,
            if dc = "-" then (-1 : ℤ) else 1)
      else none)
    if fls.length > 0 then some ⟨f.ftype, fls⟩ else none
  else none

lemma pruneFeature_eq_spec (start_coord end_coord : ℤ) (f : GFeature) :
    pruneFeature start_coord end_coord f = pruneFeatureSpec start_coord end_coord f := by
  unfold pruneFeature pruneFeatureSpec
  simp only
  split
  · have hcong : f.coords.filterMap (fun t =>
        if rangesOverlap t.1 t.2.1 start_coord end_coord then
          if t.2.1 > end_coord ∧ f.ftype = "CDS" then none
          else
            if t.1 < max start_coord 1 ∧ f.ftype = "CDS" then none
            else
              some ((if t.1 < max start_coord 1 then 1 else t.1 - max start_coord 1 + 1) - 1,
                if t.2.1 > end_coord then end_coord - max start_coord 1 + 1
                  else t.2.1 - max start_coord 1 + 1,
                if t.2.2 = "-" then (-1 : ℤ) else 1)
        else none) =
        f.coords.filterMap (fun t =>
        if rangesOverlap t.1 t.2.1 start_coord end_coord then
          if f.ftype = "CDS" ∧ (t.2.1 > end_coord ∨ t.1 < max start_coord 1) then none
          else
            some (max t.1 (max start_coord 1) - max start_coord 1,
              min t.2.1 end_coord - max start_coord 1 + 1,
              if t.2.2 = "-" then (-1 : ℤ) else 1)
        else none) := by
      apply List.filterMap_congr
      intro t _
      have hlo : ∀ sc startC : ℤ,
          (if sc < startC then (1 : ℤ) else sc - startC + 1) - 1 = max sc startC - startC := by
        intro sc startC
        by_cases h : sc < startC
        · rw [if_pos h, max_eq_right h.le]
          omega
        · rw [if_neg h, max_eq_left (le_of_not_lt h)]
          omega
      have hhi : ∀ ec e startC : ℤ,
          (if ec > e then e - startC + 1 else ec - startC + 1) = min ec e - startC + 1 := by
        intro ec e startC
        by_cases h : ec > e
        · rw [if_pos h, min_eq_right h.le]
        · rw [if_neg h, min_eq_left (le_of_not_lt h)]
      rw [hlo t.1 (max start_coord 1), hhi t.2.1 end_coord (max start_coord 1)]
      split_ifs <;> first | rfl | tauto
    simp only [hcong]
  · rfl

/-- C4: the feature pruning of `createGenbank` implements the specified
boundary policy: only features whose overall span intersects the window are
kept; each exon segment is kept only if it intersects the window; a segment
whose end exceeds the right boundary or whose start precedes the left
boundary is dropped entirely for a `CDS` feature and clipped to the
boundary for any other feature type; and a feature with zero surviving
segments is dropped outright. -/
theorem createGenbank_boundary_policy (start_coord end_coord : ℤ)
    (features : List GFeature) :
    createGenbank start_coord end_coord features =
      features.filterMap (pruneFeatureSpec start_coord end_coord) := by
  unfold createGenbank
  apply List.filterMap_congr
  intro f _
  exact pruneFeature_eq_spec start_coord end_coord f

/- ------------------------------------------------------------------ -/
/- checkCoreHomologGroupsExist (util.py lines 588-606)                 -/
/- ------------------------------------------------------------------ -/

/-- Python `str.split('\t')`: the segments of a char list between tab
characters; splitting the empty string yields `[[]]`. -/
def splitTab : List Char → List (List Char)
  | [] => [[]]
  | c :: cs =>
    match splitTab cs with
    | [] => [[]]
    | h :: t => if c = '\t' then [] :: h :: t else (c :: h) :: t

/-- Whitespace characters stripped by Python `str.strip()`. -/
def isPyWs (c : Char) : Bool :=
  c = ' ' || c = '\t' || c = '\n' || c = '\r' || c = Char.ofNat 11 || c = Char.ofNat 12

/-- Python `str.strip()` on a char list. -/
def pyStrip (l : List Char) : List Char :=
  ((l.dropWhile isPyWs).reverse.dropWhile isPyWs).reverse

/-- Python `str.rstrip('\n')` on a char list. -/
def rstripNl (l : List Char) : List Char :=
  (l.reverse.dropWhile (fun c => c = '\n')).reverse

/-- The per-sample columns of one ortholog-matrix row: everything after the
first tab-separated field (`ls[1:]`). -/
def coreRowCols (line : List Char) : List (List Char) :=
  (splitTab (rstripNl line)).drop 1

/-- Whether a row is core: the count of non-blank sample columns equals the
column count (`sample_count / float(len(ls[1:])) == 1.0`). -/
def coreRow (line : List Char) : Bool :=
  decide ((coreRowCols line).countP (fun cc => decide (pyStrip cc ≠ [])) =
    (coreRowCols line).length)

/-- The loop of `checkCoreHomologGroupsExist` over the non-header rows,
carrying whether a core row has been seen.  A row with zero sample columns
makes `sample_count / float(0)` raise `ZeroDivisionError`, which the
enclosing `except` turns into an immediate `False`. -/
def checkCoreAux : List (List Char) → Bool → Bool
  | [], found => found
  | line :: rest, found =>
    if (coreRowCols line).length = 0 then false
    else checkCoreAux rest (found || coreRow line)

/-- `checkCoreHomologGroupsExist` on the list of lines of the ortholog
matrix file (first line is the header and is skipped). -/
def checkCoreHomologGroupsExist (lines : List (List Char)) : Bool :=
  checkCoreAux (lines.drop 1) false

lemma checkCoreAux_wellformed (rows : List (List Char)) :
    (∀ l ∈ rows, coreRowCols l ≠ []) →
    ∀ b : Bool, checkCoreAux rows b = (b || rows.any coreRow) := by
  induction rows with
  | nil => intro _ b; simp [checkCoreAux]
  | cons line rest ih =>
    intro hwf b
    have hline : coreRowCols line ≠ [] := hwf line (List.mem_cons_self line rest)
    have hlen : ¬ (coreRowCols line).length = 0 := by
      simpa [List.length_eq_zero] using hline
    simp only [checkCoreAux, if_neg hlen]
    rw [ih (fun l hl => hwf l (List.mem_cons_of_mem line hl)) (b || coreRow line)]
    simp [List.any_cons, Bool.or_assoc]

lemma checkCoreAux_malformed (rows : List (List Char)) :
    (∃ l ∈ rows, coreRowCols l = []) → ∀ b : Bool, checkCoreAux rows b = false := by
  induction rows with
  | nil => rintro ⟨l, hl, _⟩; exact absurd hl (List.not_mem_nil l)
  | cons line rest ih =>
    rintro ⟨l, hl, hcols⟩ b
    rcases List.mem_cons.mp hl with h1 | h2
    · subst h1
      simp [checkCoreAux, List.length_eq_zero.mpr hcols]
    · by_cases hline : (coreRowCols line).length = 0
      · simp [checkCoreAux, hline]
      · simp only [checkCoreAux, if_neg hline]
        exact ih ⟨l, h2, hcols⟩ (b || coreRow line)

/-- C9: on a matrix whose non-header rows all have at least one sample
column, `checkCoreHomologGroupsExist` returns `true` iff some row below the
header has every sample column non-blank; and whenever some non-header row
has no sample column at all (a parse problem — the core-fraction division
raises), the function returns `false` rather than raising. -/
theorem checkCoreHomologGroupsExist_spec (lines : List (List Char)) :
    ((∀ l ∈ lines.drop 1, coreRowCols l ≠ []) →
      (checkCoreHomologGroupsExist lines = true ↔
        ∃ l ∈ lines.drop 1, coreRow l = true)) ∧
    ((∃ l ∈ lines.drop 1, coreRowCols l = []) →
      checkCoreHomologGroupsExist lines = false) := by
  constructor
  · intro hwf
    unfold checkCoreHomologGroupsExist
    rw [checkCoreAux_wellformed (lines.drop 1) hwf false]
    simp [List.any_eq_true]
  · intro hmal
    unfold checkCoreHomologGroupsExist
    exact checkCoreAux_malformed (lines.drop 1) hmal false

/-- Witness for C9: a two-row matrix whose first data row is fully
populated and whose second has a blank column is detected as having a core
ortholog group. -/
theorem checkCoreHomologGroupsExist_spec_witness :
    checkCoreHomologGroupsExist
      [['h', 'd', 'r'],
       ['h', 'g', '1', '\t', 'a', '\t', 'b'],
       ['h', 'g', '2', '\t', '\t', 'c']] = true := by
  apply ((checkCoreHomologGroupsExist_spec _).1 (by decide)).2
  exact ⟨['h', 'g', '1', '\t', 'a', '\t', 'b'], by decide, by decide⟩

/- ------------------------------------------------------------------ -/
/- calculateSelectDistances (util.py lines 526-552)                    -/
/- ------------------------------------------------------------------ -/

/-- Lexicographic (code-point) comparison of Python strings, as used by
`sorted` on leaf names. -/
def strLe : List Char → List Char → Bool
  | [], _ => true
  | _ :: _, [] => false
  | x :: xs, y :: ys => if x = y then strLe xs ys else decide (x < y)

/-- The name-sorted duplicate-free leaf list (`sorted` over the leaf-name
set). -/
def sortLeafs (leafs : List (List Char)) : List (List Char) :=
  List.insertionSort (fun a b => strLe a b = true) leafs.dedup

/-- All ordered position pairs `i < j` of the double loop over the sorted
leaf list, in iteration order. -/
def leafPairs : List (List Char) → List (List Char × List Char)
  | [] => []
  | x :: xs => (xs.map (fun y => (x, y))) ++ leafPairs xs

/-- The genome name of a leaf: the substring before the first `'|'`
(`name.split('|')[0]`). -/
def genomeName (s : List Char) : List Char :=
  s.takeWhile (fun c => !(c = '|'))

/-- Association-list lookup, modelling Python dict access. -/
def alookup : List ((List Char × List Char) × ℚ) → (List Char × List Char) → Option ℚ
  | [], _ => none
  | (k2, v) :: rest, k => if k2 = k then some v else alookup rest k

/-- Association-list assignment, modelling Python dict item assignment. -/
def aupdate : List ((List Char × List Char) × ℚ) → (List Char × List Char) → ℚ →
    List ((List Char × List Char) × ℚ)
  | [], k, v => [(k, v)]
  | (k2, v2) :: rest, k, v =>
    if k2 = k then (k, v) :: rest else (k2, v2) :: aupdate rest k v

/-- `calculateSelectDistances`: the pairwise loop over sorted leaves.  The
patristic distance `t.get_distance(n1, n2)` is supplied as the function
parameter `dist`.  The source's update step tests whether the new distance
is below the stored one but assigns the new distance in both branches of
that test, so the stored value is always the most recently computed one. -/
def calculateSelectDistances (leafs : List (List Char))
    (dist : List Char → List Char → ℚ)
    (selected : List (List Char × List Char)) :
    List ((List Char × List Char) × ℚ) :=
  (leafPairs (sortLeafs leafs)).foldl
    (fun pw_info pr =>
      if pr.1 = pr.2 then pw_info
      else
        let pw_key := (genomeName pr.1, genomeName pr.2)
        let pw_dist := dist pr.1 pr.2
        if pw_key ∈ selected then
          match alookup pw_info pw_key with
          | some prev =>
            if pw_dist < prev then aupdate pw_info pw_key pw_dist
            else aupdate pw_info pw_key pw_dist
          | none => aupdate pw_info pw_key pw_dist
        else pw_info)
    []

/-- C1 (divergence witness): with leaves `A|1`, `A|2`, `B|1` and patristic
distances `d(A|1,B|1) = 1`, `d(A|2,B|1) = 5`, the recorded distance for the
selected genome pair `(A, B)` is `5` — the distance of the leaf pair
iterated last — although the minimum distance realizing that genome pair
is `1`. -/
theorem calculateSelectDistances_keeps_last :
    alookup
      (calculateSelectDistances
        [['A', '|', '1'], ['A', '|', '2'], ['B', '|', '1']]
        (fun a b =>
          if a = ['A', '|', '1'] ∧ b = ['B', '|', '1'] then (1 : ℚ) else 5)
        [(['A'], ['B'])])
      (['A'], ['B']) = some 5 := by
  decide

/- ------------------------------------------------------------------ -/
/- computeCongruence (util.py lines 554-586)                           -/
/- ------------------------------------------------------------------ -/

/-- `computeCongruence`: the gene tree's pairwise distances are computed by
`calculateSelectDistances` from the gene tree's leaves and distance
function; `gc_pw_info` is the consensus tree's distance table; `linreg`
models `scipy.stats.linregress` returning `(slope, rvalue)` or `none` when
the regression raises.  The returned value models the written output line:
`some (slope, rvalue)` for numeric output, `none` for `NA\tNA`. -/
def computeCongruence (leafs : List (List Char))
    (dist : List Char → List Char → ℚ)
    (gc_pw_info : List ((List Char × List Char) × ℚ))
    (selected : List (List Char × List Char))
    (linreg : List ℚ → List ℚ → Option (ℚ × ℚ)) : Option (ℚ × ℚ) :=
  let hg_pw_info := calculateSelectDistances leafs dist selected
  let both := selected.filterMap (fun pr =>
    match alookup hg_pw_info pr, alookup gc_pw_info pr with
    | some a, some b => some (a, b)
    | _, _ => none)
  let hg_pw_dists_filt := both.map Prod.fst
  let gc_pw_dists_filt := both.map Prod.snd
  if hg_pw_dists_filt = gc_pw_dists_filt then some (1, 1)
  else if 3 ≤ hg_pw_dists_filt.length then linreg gc_pw_dists_filt hg_pw_dists_filt
  else none

/-- C5: when every selected pair is missing from at least one of the two
distance tables (the `"nan"` sentinel), the two filtered distance vectors
are both empty, compare equal, and the output line is `1.0`/`1.0` rather
than `NA`/`NA`. -/
theorem computeCongruence_all_nan (leafs : List (List Char))
    (dist : List Char → List Char → ℚ)
    (gc_pw_info : List ((List Char × List Char) × ℚ))
    (selected : List (List Char × List Char))
    (linreg : List ℚ → List ℚ → Option (ℚ × ℚ))
    (h : ∀ pr ∈ selected,
      alookup (calculateSelectDistances leafs dist selected) pr = none ∨
        alookup gc_pw_info pr = none) :
    computeCongruence leafs dist gc_pw_info selected linreg = some (1, 1) := by
  unfold computeCongruence
  have hboth : selected.filterMap (fun pr =>
      match alookup (calculateSelectDistances leafs dist selected) pr,
        alookup gc_pw_info pr with
      | some a, some b => some (a, b)
      | _, _ => none) = [] := by
    rw [List.filterMap_eq_nil_iff]
    intro pr hpr
    rcases h pr hpr with h1 | h1 <;> rw [h1] <;> rcases alookup gc_pw_info pr <;>
      rcases alookup (calculateSelectDistances leafs dist selected) pr <;> rfl
  simp [hboth]

/-- Witness for C5: one selected pair, empty gene tree and empty consensus
table, so zero comparable pairs remain; the output is still `1.0`/`1.0`. -/
theorem computeCongruence_all_nan_witness :
    computeCongruence [] (fun a b => 0) [] [(['A'], ['B'])] (fun a b => none) =
      some (1, 1) :=
  computeCongruence_all_nan [] (fun a b => 0) [] [(['A'], ['B'])] (fun a b => none)
    (by intro pr hpr; left; rfl)

/-- C8: when the gene tree's distance table agrees with the consensus
tree's table on every selected pair, the two filtered distance vectors are
identical point for point and the reported slope and r-value are both
`1.0`. -/
theorem computeCongruence_identical (leafs : List (List Char))
    (dist : List Char → List Char → ℚ)
    (gc_pw_info : List ((List Char × List Char) × ℚ))
    (selected : List (List Char × List Char))
    (linreg : List ℚ → List ℚ → Option (ℚ × ℚ))
    (h : ∀ pr ∈ selected,
      alookup (calculateSelectDistances leafs dist selected) pr =
        alookup gc_pw_info pr) :
    computeCongruence leafs dist gc_pw_info selected linreg = some (1, 1) := by
  unfold computeCongruence
  have hdiag : ∀ x ∈ selected.filterMap (fun pr =>
      match alookup (calculateSelectDistances leafs dist selected) pr,
        alookup gc_pw_info pr with
      | some a, some b => some (a, b)
      | _, _ => none), x.1 = x.2 := by
    intro x hx
    rcases List.mem_filterMap.mp hx with ⟨pr, hpr, hmatch⟩
    rcases hl : alookup (calculateSelectDistances leafs dist selected) pr with _ | a
    · rw [hl] at hmatch
      rcases alookup gc_pw_info pr <;> simp at hmatch
    · have hgc : alookup gc_pw_info pr = some a := by rw [← h pr hpr, hl]
      rw [hl, hgc] at hmatch
      simp at hmatch
      rw [← hmatch]
  have hmaps : (selected.filterMap (fun pr =>
      match alookup (calculateSelectDistances leafs dist selected) pr,
        alookup gc_pw_info pr with
      | some a, some b => some (a, b)
      | _, _ => none)).map Prod.fst =
      (selected.filterMap (fun pr =>
      match alookup (calculateSelectDistances leafs dist selected) pr,
        alookup gc_pw_info pr with
      | some a, some b => some (a, b)
      | _, _ => none)).map Prod.snd :=
    List.map_congr_left hdiag
  simp [hmaps]

/-- Witness for C8: a two-leaf gene tree whose sole selected-pair distance
equals the consensus table's entry; the reported slope and r-value are
`1.0`. -/
theorem computeCongruence_identical_witness :
    computeCongruence [['A', '|', 'x'], ['B', '|', 'y']] (fun a b => 2)
      [((['A'], ['B']), 2)] [(['A'], ['B'])] (fun a b => none) = some (1, 1) :=
  computeCongruence_identical [['A', '|', 'x'], ['B', '|', 'y']] (fun a b => 2)
    [((['A'], ['B']), 2)] [(['A'], ['B'])] (fun a b => none) (by decide)

/- ------------------------------------------------------------------ -/
/- processGenomesAsGenbanks (util.py lines 658-718)                    -/
/- ------------------------------------------------------------------ -/

/-- `processGenomesAsGenbanks`, modelling the parts that determine the
returned mapping.  `sample_genomes` is the ordered sample-to-GenBank-path
mapping; `hasCDS` models scanning a GenBank file for a `CDS` feature;
`outputsOk` models the `os.path.isfile` validation of the three expected
per-sample outputs of the external reformatting command.  Samples whose
file lacks CDS features are collected into `lacking_cds_gbks` and skipped
by both the command-building and the validation loops; validation failure
for any processed sample raises (`none`).  The local
`sample_genomes_updated`, which maps each processed sample to its
normalized GenBank path, is built exactly as in the source but the source
returns `sample_genomes` itself (line 718), so the successful result is
the input mapping, unchanged. -/
def processGenomesAsGenbanks (sample_genomes : List (String × String))
    (hasCDS : String → Bool) (genbanks_directory : String)
    (outputsOk : String → Bool) : Option (List (String × String)) :=
  let lacking_cds_gbks :=
    (sample_genomes.filter (fun sg => !hasCDS sg.2)).map Prod.fst
  let sample_genomes_updated :=
    (sample_genomes.filter (fun sg => !(sg.1 ∈ lacking_cds_gbks))).map
      (fun sg => (sg.1, genbanks_directory ++ sg.1 ++ ".gbk"))
  if sample_genomes.all (fun sg => sg.1 ∈ lacking_cds_gbks || outputsOk sg.1) then
    some sample_genomes
  else none

/-- The mapping the validation loop of `processGenomesAsGenbanks` builds in
its local `sample_genomes_updated`: only samples whose GenBank has a `CDS`
feature, each mapped to its normalized GenBank path. -/
def processedSamplesUpdated (sample_genomes : List (String × String))
    (hasCDS : String → Bool) (genbanks_directory : String) :
    List (String × String) :=
  let lacking_cds_gbks :=
    (sample_genomes.filter (fun sg => !hasCDS sg.2)).map Prod.fst
  (sample_genomes.filter (fun sg => !(sg.1 ∈ lacking_cds_gbks))).map
    (fun sg => (sg.1, genbanks_directory ++ sg.1 ++ ".gbk"))

/-- C2 (divergence witness): for a single sample whose GenBank file has no
CDS feature, `processGenomesAsGenbanks` succeeds and returns the sample
still present and still mapped to its original path — the input mapping
unchanged — even though the validation loop's local updated mapping is
empty; the no-CDS sample is not excluded from the returned result. -/
theorem processGenomesAsGenbanks_returns_input :
    processGenomesAsGenbanks [("s1", "s1.gbk")] (fun p => false) "gbks/"
        (fun p => false) = some [("s1", "s1.gbk")] ∧
    processedSamplesUpdated [("s1", "s1.gbk")] (fun p => false) "gbks/" = [] := by
  constructor
  · rfl
  · rfl

/- ------------------------------------------------------------------ -/
/- renameCDSLocusTag (util.py lines 767-807)                           -/
/- ------------------------------------------------------------------ -/

/-- A GenBank record as `renameCDSLocusTag` reads it: the record sequence
and the ordered feature types. -/
structure GBRecord where
  seq : List Char
  ftypes : List String
deriving DecidableEq

/-- The non-ACGT fraction of the concatenated record sequences
(`prop_missing`). -/
def propMissing (recs : List GBRecord) : ℚ :=
  let seqs := (recs.map (fun r => r.seq)).flatten
  ((seqs.countP (fun bp => !(bp = 'A' || bp = 'C' || bp = 'G' || bp = 'T'))) : ℚ) /
    (seqs.length : ℚ)

/-- The zero-padded sequential locus tag `<lt>_NNNNNN` the renaming loop
builds for the `i`-th CDS (`i` starting at 1). -/
def numberedLocusTag (lt : String) (i : ℕ) : String :=
  lt ++ "_" ++
    (if i < 10 then "00000" ++ toString i
     else if i < 100 then "0000" ++ toString i
     else if i < 1000 then "000" ++ toString i
     else if i < 10000 then "00" ++ toString i
     else if i < 100000 then "0" ++ toString i
     else toString i)

/-- `renameCDSLocusTag`: returns the list of locus tags written to the
renamed GenBank, or `none` when no output file is produced (no CDS, the
quality filter rejecting, or the division raising on an empty sequence). -/
def renameCDSLocusTag (recs : List GBRecord) (lt : String)
    (filter_low_quality : Bool) : Option (List String) :=
  let number_of_cds :=
    (recs.map (fun r => r.ftypes.countP (fun t => t = "CDS"))).sum
  let seqs := (recs.map (fun r => r.seq)).flatten
  if seqs.length = 0 then none
  else
    if number_of_cds > 0 ∧ (propMissing recs ≤ 1 / 10 ∨ ¬ filter_low_quality) then
      some ((List.range number_of_cds).map (fun i => numberedLocusTag lt (i + 1)))
    else none

lemma propMissing_eval (recs : List GBRecord) (c n : ℕ)
    (hc : ((recs.map (fun r => r.seq)).flatten.countP
      (fun bp => !(bp = 'A' || bp = 'C' || bp = 'G' || bp = 'T'))) = c)
    (hl : ((recs.map (fun r => r.seq)).flatten.length) = n) :
    propMissing recs = (c : ℚ) / (n : ℚ) := by
  simp only [propMissing]
  rw [hc, hl]

/-- C3 counterexample: a single-record genome of length 10 with exactly one
non-ACGT base — non-ACGT fraction exactly `0.10` — and one CDS feature.
With quality filtering enabled (the default), `renameCDSLocusTag` does
produce the renamed GenBank (the source writes whenever
`prop_missing <= 0.1`), contradicting the claim that no output is produced
at a fraction of exactly `0.10`. -/
theorem renameCDSLocusTag_boundary_writes :
    propMissing [⟨['N', 'A', 'C', 'G', 'T', 'A', 'C', 'G', 'T', 'A'], ["CDS"]⟩] =
        1 / 10 ∧
    renameCDSLocusTag [⟨['N', 'A', 'C', 'G', 'T', 'A', 'C', 'G', 'T', 'A'], ["CDS"]⟩]
        "ABC" true = some ["ABC_000001"] := by
  have hprop : propMissing
      [⟨['N', 'A', 'C', 'G', 'T', 'A', 'C', 'G', 'T', 'A'], ["CDS"]⟩] = 1 / 10 := by
    rw [propMissing_eval _ 1 10 (by decide) (by decide)]
    norm_num
  refine ⟨hprop, ?_⟩
  simp only [renameCDSLocusTag]
  rw [if_neg (by decide :
    ¬ ((List.map (fun r => r.seq)
      [(⟨['N', 'A', 'C', 'G', 'T', 'A', 'C', 'G', 'T', 'A'], ["CDS"]⟩ : GBRecord)]).flatten.length = 0))]
  split_ifs with hcond
  · decide
  · exact absurd ⟨by decide, Or.inl (le_of_eq hprop)⟩ hcond

/-- C3 (amended): with quality filtering enabled, `renameCDSLocusTag`
refuses to write any output whenever the non-ACGT fraction of the
concatenated sequence is strictly greater than `0.10`. -/
theorem renameCDSLocusTag_refuses_above_tenth (recs : List GBRecord) (lt : String)
    (h : propMissing recs > 1 / 10) :
    renameCDSLocusTag recs lt true = none := by
  unfold renameCDSLocusTag
  simp only
  by_cases hlen : ((recs.map (fun r => r.seq)).flatten).length = 0
  · rw [if_pos hlen]
  · rw [if_neg hlen]
    split_ifs with hcond
    · rcases hcond with ⟨_, h2 | h2⟩
      · exact absurd h (not_lt.mpr h2)
      · exact absurd (by trivial) h2
    · rfl

/-- Witness for C3's amended theorem: a genome with 2 of 10 bases non-ACGT
(fraction `0.20 > 0.10`) produces no output under quality filtering. -/
theorem renameCDSLocusTag_refuses_witness :
    propMissing [⟨['N', 'N', 'C', 'G', 'T', 'A', 'C', 'G', 'T', 'A'], ["CDS"]⟩] > 1 / 10 ∧
    renameCDSLocusTag [⟨['N', 'N', 'C', 'G', 'T', 'A', 'C', 'G', 'T', 'A'], ["CDS"]⟩]
        "ABC" true = none :=
  ⟨by rw [propMissing_eval _ 2 10 (by decide) (by decide)]; norm_num,
   renameCDSLocusTag_refuses_above_tenth
     [⟨['N', 'N', 'C', 'G', 'T', 'A', 'C', 'G', 'T', 'A'], ["CDS"]⟩] "ABC"
     (by rw [propMissing_eval _ 2 10 (by decide) (by decide)]; norm_num)⟩

/- ------------------------------------------------------------------ -/
/- p_adjust_bh (util.py lines 203-212)                                 -/
/- ------------------------------------------------------------------ -/

/-- Indexing with a default, modelling NumPy array indexing (all indices
used are in bounds; the default only totalizes the function). -/
def dget {α : Type} (d : α) : List α → ℕ → α
  | [], _ => d
  | x :: _, 0 => x
  | _ :: xs, n + 1 => dget d xs n

/-- Element of a rational vector. -/
def pget (l : List ℚ) (i : ℕ) : ℚ := dget 0 l i

/-- Element of an index vector. -/
def nget (l : List ℕ) (i : ℕ) : ℕ := dget 0 l i

/-- The total order on positions used to model `argsort` of the key vector
`f`: ascending keys, ties broken by ascending position. -/
def keyRel {α : Type} [LinearOrder α] (f : ℕ → α) (i j : ℕ) : Prop :=
  f i < f j ∨ (f i = f j ∧ i ≤ j)

instance keyRel_decidable {α : Type} [LinearOrder α] (f : ℕ → α) :
    DecidableRel (keyRel f) :=
  fun i j => inferInstanceAs (Decidable (f i < f j ∨ (f i = f j ∧ i ≤ j)))

instance keyRel_total {α : Type} [LinearOrder α] (f : ℕ → α) :
    IsTotal ℕ (keyRel f) := by
  constructor
  intro i j
  rcases lt_trichotomy (f i) (f j) with h | h | h
  · exact Or.inl (Or.inl h)
  · rcases le_total i j with hij | hij
    · exact Or.inl (Or.inr ⟨h, hij⟩)
    · exact Or.inr (Or.inr ⟨h.symm, hij⟩)
  · exact Or.inr (Or.inl h)

instance keyRel_trans {α : Type} [LinearOrder α] (f : ℕ → α) :
    IsTrans ℕ (keyRel f) := by
  constructor
  intro a b c hab hbc
  rcases hab with h1 | ⟨h1, h1le⟩ <;> rcases hbc with h2 | ⟨h2, h2le⟩
  · exact Or.inl (h1.trans h2)
  · exact Or.inl (h2 ▸ h1)
  · exact Or.inl (h1 ▸ h2)
  · exact Or.inr ⟨h1.trans h2, h1le.trans h2le⟩

instance keyRel_antisymm {α : Type} [LinearOrder α] (f : ℕ → α) :
    IsAntisymm ℕ (keyRel f) := by
  constructor
  intro a b hab hba
  rcases hab with h1 | ⟨h1, h1le⟩ <;> rcases hba with h2 | ⟨h2, h2le⟩
  · exact absurd (h1.trans h2) (lt_irrefl _)
  · exact absurd h1 (h2 ▸ lt_irrefl _)
  · exact absurd h2 (h1 ▸ lt_irrefl _)
  · exact le_antisymm h1le h2le

/-- `p.argsort()`: the positions `0..n-1` sorted by ascending key (stable
tie-break by position; NumPy's default sort fixes some tie order, and every
conclusion below is independent of which one). -/
def argsortQ (p : List ℚ) : List ℕ :=
  List.insertionSort (keyRel (pget p)) (List.range p.length)

/-- `by_descend = p.argsort()[::-1]`. -/
def by_descend (p : List ℚ) : List ℕ := (argsortQ p).reverse

/-- `argsort` of an index vector (used for `by_descend.argsort()`). -/
def argsortN (v : List ℕ) : List ℕ :=
  List.insertionSort (keyRel (nget v)) (List.range v.length)

/-- `by_orig = by_descend.argsort()`: the inverse permutation. -/
def by_orig (p : List ℚ) : List ℕ := argsortN (by_descend p)

/-- `steps = float(len(p)) / np.arange(len(p), 0, -1)`: entry `k` is
`n / (n - k)`. -/
def bhSteps (n : ℕ) : List ℚ :=
  (List.range n).map (fun k => (n : ℚ) / ((n - k : ℕ) : ℚ))

/-- `p[by_descend]`: the p-values in descending order. -/
def sortedDesc (p : List ℚ) : List ℚ := (by_descend p).map (pget p)

/-- `steps * p[by_descend]` elementwise. -/
def bhProds (p : List ℚ) : List ℚ :=
  List.zipWith (fun a b => a * b) (bhSteps p.length) (sortedDesc p)

/-- Running minimum after the first element (`np.minimum.accumulate`). -/
def cumminAux (m : ℚ) : List ℚ → List ℚ
  | [] => []
  | y :: ys => min m y :: cumminAux (min m y) ys

/-- `np.minimum.accumulate`. -/
def cummin : List ℚ → List ℚ
  | [] => []
  | x :: xs => x :: cumminAux x xs

/-- `q = np.minimum(1, np.minimum.accumulate(steps * p[by_descend]))`. -/
def q_desc (p : List ℚ) : List ℚ :=
  (cummin (bhProds p)).map (fun x => min 1 x)

/-- `p_adjust_bh` returns `q[by_orig]`. -/
def p_adjust_bh (p : List ℚ) : List ℚ :=
  (by_orig p).map (fun k => pget (q_desc p) k)

lemma dget_eq_getElem {α : Type} (d : α) (l : List α) (i : ℕ) (h : i < l.length) :
    dget d l i = l[i] := by
  induction l generalizing i with
  | nil => simp at h
  | cons x xs ih =>
    cases i with
    | zero => rfl
    | succ n =>
      simp only [dget, List.getElem_cons_succ]
      exact ih n (by simpa using h)

lemma dget_map {α β : Type} (d : α) (e : β) (f : α → β) (l : List α) (i : ℕ)
    (h : i < l.length) : dget e (l.map f) i = f (dget d l i) := by
  rw [dget_eq_getElem e (l.map f) i (by simpa using h), dget_eq_getElem d l i h,
    List.getElem_map]

lemma pget_nonneg (p : List ℚ) (hp : ∀ x ∈ p, 0 ≤ x) (i : ℕ) : 0 ≤ pget p i := by
  induction p generalizing i with
  | nil => simp [pget, dget]
  | cons x xs ih =>
    cases i with
    | zero => exact hp x (List.mem_cons_self x xs)
    | succ n => exact ih (fun y hy => hp y (List.mem_cons_of_mem x hy)) n

lemma argsortQ_perm (p : List ℚ) : (argsortQ p).Perm (List.range p.length) :=
  List.perm_insertionSort _ _

lemma by_descend_perm (p : List ℚ) : (by_descend p).Perm (List.range p.length) :=
  (List.reverse_perm _).trans (argsortQ_perm p)

lemma by_descend_length (p : List ℚ) : (by_descend p).length = p.length := by
  have := (by_descend_perm p).length_eq
  simpa using this

lemma by_descend_nodup (p : List ℚ) : (by_descend p).Nodup :=
  ((by_descend_perm p).nodup_iff).mpr (List.nodup_range _)

lemma mem_by_descend (p : List ℚ) (i : ℕ) : i ∈ by_descend p ↔ i < p.length := by
  rw [(by_descend_perm p).mem_iff, List.mem_range]

lemma argsortQ_length (p : List ℚ) : (argsortQ p).length = p.length := by
  have := (argsortQ_perm p).length_eq
  simpa using this

lemma argsortN_perm (v : List ℕ) : (argsortN v).Perm (List.range v.length) :=
  List.perm_insertionSort _ _

lemma argsortN_length (v : List ℕ) : (argsortN v).length = v.length := by
  have := (argsortN_perm v).length_eq
  simpa using this

/-- The argsort of a permutation of `range n` is its inverse permutation,
expressed as the list of first-occurrence positions. -/
lemma argsortN_eq_indexOf (v : List ℕ) (hv : v.Perm (List.range v.length)) :
    argsortN v = (List.range v.length).map (fun j => List.indexOf j v) := by
  have hnodup : v.Nodup := (hv.nodup_iff).mpr (List.nodup_range _)
  have hmem : ∀ k : ℕ, k ∈ v ↔ k < v.length := by
    intro k
    rw [hv.mem_iff, List.mem_range]
  have hvalL : ∀ j : ℕ, j < v.length → nget v (List.indexOf j v) = j := by
    intro j hj
    have hjv : j ∈ v := (hmem j).mpr hj
    have hidx : List.indexOf j v < v.length := List.indexOf_lt_length.mpr hjv
    simp only [nget]
    rw [dget_eq_getElem _ _ _ hidx]
    exact List.getElem_indexOf hidx
  have hsortL : List.Sorted (keyRel (nget v))
      ((List.range v.length).map (fun j => List.indexOf j v)) := by
    show List.Pairwise _ _
    rw [List.pairwise_map, List.pairwise_iff_getElem]
    intro i j hi hj hij
    simp only [List.length_range] at hi hj
    rw [List.getElem_range, List.getElem_range]
    left
    rw [hvalL i hi, hvalL j hj]
    exact hij
  have hnodL : ((List.range v.length).map (fun j => List.indexOf j v)).Nodup := by
    refine List.Nodup.map_on ?_ (List.nodup_range _)
    intro x hx y hy hxy
    rw [List.mem_range] at hx hy
    have h1 := hvalL x hx
    have h2 := hvalL y hy
    rw [← h1, hxy, h2]
  have hmemL : ∀ a : ℕ,
      a ∈ (List.range v.length).map (fun j => List.indexOf j v) ↔
        a ∈ List.range v.length := by
    intro a
    constructor
    · intro hmem2
      rcases List.mem_map.mp hmem2 with ⟨j, hj, rfl⟩
      rw [List.mem_range] at hj ⊢
      exact List.indexOf_lt_length.mpr ((hmem j).mpr hj)
    · intro ha
      rw [List.mem_range] at ha
      refine List.mem_map.mpr ⟨v[a], ?_, ?_⟩
      · rw [List.mem_range]
        exact (hmem _).mp (List.getElem_mem ha)
      · exact List.indexOf_getElem hnodup a ha
  have hpermL : ((List.range v.length).map (fun j => List.indexOf j v)).Perm
      (List.range v.length) :=
    (List.perm_ext_iff_of_nodup hnodL (List.nodup_range _)).mpr hmemL
  have hpermA : (argsortN v).Perm
      ((List.range v.length).map (fun j => List.indexOf j v)) :=
    (argsortN_perm v).trans hpermL.symm
  exact List.eq_of_perm_of_sorted hpermA (List.sorted_insertionSort _ _) hsortL

lemma dget_indexOf_map (v : List ℕ) (i : ℕ) (hi : i < v.length) :
    dget 0 ((List.range v.length).map (fun j => List.indexOf j v)) i =
      List.indexOf i v := by
  have h1 : i < ((List.range v.length).map (fun j => List.indexOf j v)).length := by
    simpa using hi
  rw [dget_eq_getElem 0 _ _ h1]
  simp

lemma nget_by_descend_lt (p : List ℚ) (k : ℕ) (hk : k < p.length) :
    nget (by_descend p) k < p.length := by
  have hk2 : k < (by_descend p).length := by rw [by_descend_length]; exact hk
  simp only [nget]
  rw [dget_eq_getElem _ _ _ hk2]
  exact (mem_by_descend p _).mp (List.getElem_mem hk2)

/-- `by_orig` is the left inverse of `by_descend`: the double argsort
un-sorts. -/
lemma by_orig_inv (p : List ℚ) (k : ℕ) (hk : k < p.length) :
    nget (by_orig p) (nget (by_descend p) k) = k := by
  have hlenbd : (by_descend p).length = p.length := by_descend_length p
  have hv : (by_descend p).Perm (List.range (by_descend p).length) := by
    rw [hlenbd]
    exact by_descend_perm p
  have hnodup : (by_descend p).Nodup := by_descend_nodup p
  have hklen : k < (by_descend p).length := by rw [hlenbd]; exact hk
  have hvlt : nget (by_descend p) k < p.length := nget_by_descend_lt p k hk
  simp only [nget] at hvlt ⊢
  unfold by_orig
  rw [argsortN_eq_indexOf (by_descend p) hv]
  rw [dget_indexOf_map (by_descend p) (dget 0 (by_descend p) k)
    (by rw [hlenbd]; exact hvlt)]
  rw [dget_eq_getElem 0 (by_descend p) k hklen]
  exact List.indexOf_getElem hnodup k hklen

lemma argsortQ_sorted (p : List ℚ) :
    List.Sorted (keyRel (pget p)) (argsortQ p) :=
  List.sorted_insertionSort _ _

/-- `argsortQ` lists the positions of `p` in ascending p-value order. -/
lemma argsortQ_mono (p : List ℚ) (a b : ℕ) (hab : a ≤ b) (hb : b < p.length) :
    pget p (nget (argsortQ p) a) ≤ pget p (nget (argsortQ p) b) := by
  rcases eq_or_lt_of_le hab with rfl | hlt
  · exact le_rfl
  have h1a : a < (argsortQ p).length := by rw [argsortQ_length]; omega
  have h2a : b < (argsortQ p).length := by rw [argsortQ_length]; exact hb
  have hrel := List.Sorted.rel_get_of_lt (argsortQ_sorted p)
    (a := ⟨a, h1a⟩) (b := ⟨b, h2a⟩) (Fin.mk_lt_mk.mpr hlt)
  rw [List.get_eq_getElem, List.get_eq_getElem] at hrel
  simp only [nget]
  rw [dget_eq_getElem _ _ _ h1a, dget_eq_getElem _ _ _ h2a]
  rcases hrel with h | ⟨h, _⟩
  · exact le_of_lt h
  · exact le_of_eq h

lemma by_descend_get (p : List ℚ) (k : ℕ) (hk : k < p.length) :
    nget (by_descend p) k = nget (argsortQ p) (p.length - 1 - k) := by
  have hk2 : k < (by_descend p).length := by rw [by_descend_length]; exact hk
  have hk3 : p.length - 1 - k < (argsortQ p).length := by rw [argsortQ_length]; omega
  have hlen : (argsortQ p).length = p.length := argsortQ_length p
  simp only [nget]
  rw [dget_eq_getElem _ _ _ hk2, dget_eq_getElem _ _ _ hk3]
  simp only [by_descend]
  rw [List.getElem_reverse]
  congr 1
  omega

lemma cumminAux_length (m : ℚ) (l : List ℚ) : (cumminAux m l).length = l.length := by
  induction l generalizing m with
  | nil => rfl
  | cons y ys ih => simp [cumminAux, ih]

lemma cummin_length (l : List ℚ) : (cummin l).length = l.length := by
  cases l with
  | nil => rfl
  | cons x xs => simp [cummin, cumminAux_length]

lemma cumminAux_le : ∀ (l : List ℚ) (m : ℚ) (j : ℕ), j < l.length →
    dget 0 (cumminAux m l) j ≤ m := by
  intro l
  induction l with
  | nil => intro m j hj; simp at hj
  | cons y ys ih =>
    intro m j hj
    cases j with
    | zero => exact min_le_left m y
    | succ j2 =>
      have h2 := ih (min m y) j2 (by simpa using hj)
      calc dget 0 (cumminAux m (y :: ys)) (j2 + 1)
          = dget 0 (cumminAux (min m y) ys) j2 := rfl
        _ ≤ min m y := h2
        _ ≤ m := min_le_left m y

lemma cumminAux_antitone : ∀ (l : List ℚ) (m : ℚ) (i j : ℕ), i ≤ j → j < l.length →
    dget 0 (cumminAux m l) j ≤ dget 0 (cumminAux m l) i := by
  intro l
  induction l with
  | nil => intro m i j _ hj; simp at hj
  | cons y ys ih =>
    intro m i j hij hj
    cases i with
    | zero =>
      cases j with
      | zero => exact le_rfl
      | succ j2 =>
        calc dget 0 (cumminAux m (y :: ys)) (j2 + 1)
            = dget 0 (cumminAux (min m y) ys) j2 := rfl
          _ ≤ min m y := cumminAux_le ys (min m y) j2 (by simpa using hj)
    | succ i2 =>
      cases j with
      | zero => omega
      | succ j2 =>
        calc dget 0 (cumminAux m (y :: ys)) (j2 + 1)
            = dget 0 (cumminAux (min m y) ys) j2 := rfl
          _ ≤ dget 0 (cumminAux (min m y) ys) i2 :=
            ih (min m y) i2 j2 (by omega) (by simpa using hj)
          _ = dget 0 (cumminAux m (y :: ys)) (i2 + 1) := rfl

lemma cummin_antitone (l : List ℚ) (i j : ℕ) (hij : i ≤ j) (hj : j < l.length) :
    dget 0 (cummin l) j ≤ dget 0 (cummin l) i := by
  cases l with
  | nil => simp at hj
  | cons x xs =>
    cases i with
    | zero =>
      cases j with
      | zero => exact le_rfl
      | succ j2 =>
        calc dget 0 (cummin (x :: xs)) (j2 + 1)
            = dget 0 (cumminAux x xs) j2 := rfl
          _ ≤ x := cumminAux_le xs x j2 (by simpa using hj)
          _ = dget 0 (cummin (x :: xs)) 0 := rfl
    | succ i2 =>
      cases j with
      | zero => omega
      | succ j2 =>
        calc dget 0 (cummin (x :: xs)) (j2 + 1)
            = dget 0 (cumminAux x xs) j2 := rfl
          _ ≤ dget 0 (cumminAux x xs) i2 :=
            cumminAux_antitone xs x i2 j2 (by omega) (by simpa using hj)
          _ = dget 0 (cummin (x :: xs)) (i2 + 1) := rfl

lemma cumminAux_nonneg : ∀ (l : List ℚ), (∀ x ∈ l, 0 ≤ x) → ∀ m : ℚ, 0 ≤ m →
    ∀ y ∈ cumminAux m l, 0 ≤ y := by
  intro l
  induction l with
  | nil => intro _ m _ y hy; simp [cumminAux] at hy
  | cons z zs ih =>
    intro hl m hm y hy
    simp only [cumminAux, List.mem_cons] at hy
    have hz : (0 : ℚ) ≤ z := hl z (List.mem_cons_self z zs)
    rcases hy with rfl | hy
    · exact le_min hm hz
    · exact ih (fun x hx => hl x (List.mem_cons_of_mem z hx)) (min m z)
        (le_min hm hz) y hy

lemma cummin_nonneg (l : List ℚ) (hl : ∀ x ∈ l, 0 ≤ x) :
    ∀ y ∈ cummin l, 0 ≤ y := by
  cases l with
  | nil => intro y hy; simp [cummin] at hy
  | cons x xs =>
    intro y hy
    simp only [cummin, List.mem_cons] at hy
    have hx : (0 : ℚ) ≤ x := hl x (List.mem_cons_self x xs)
    rcases hy with rfl | hy
    · exact hx
    · exact cumminAux_nonneg xs (fun z hz => hl z (List.mem_cons_of_mem x hz)) x hx y hy

lemma zipWith_mul_nonneg : ∀ (l1 l2 : List ℚ), (∀ x ∈ l1, 0 ≤ x) →
    (∀ x ∈ l2, 0 ≤ x) → ∀ y ∈ List.zipWith (fun a b => a * b) l1 l2, 0 ≤ y := by
  intro l1
  induction l1 with
  | nil => intro l2 _ _ y hy; simp at hy
  | cons a as ih =>
    intro l2 h1 h2 y hy
    cases l2 with
    | nil => simp at hy
    | cons b bs =>
      simp only [List.zipWith_cons_cons, List.mem_cons] at hy
      rcases hy with rfl | hy
      · exact mul_nonneg (h1 a (List.mem_cons_self a as)) (h2 b (List.mem_cons_self b bs))
      · exact ih bs (fun x hx => h1 x (List.mem_cons_of_mem a hx))
          (fun x hx => h2 x (List.mem_cons_of_mem b hx)) y hy

lemma bhSteps_nonneg (n : ℕ) : ∀ x ∈ bhSteps n, 0 ≤ x := by
  intro x hx
  rcases List.mem_map.mp hx with ⟨k, _, rfl⟩
  exact div_nonneg (Nat.cast_nonneg n) (Nat.cast_nonneg _)

lemma sortedDesc_nonneg (p : List ℚ) (hp : ∀ x ∈ p, 0 ≤ x) :
    ∀ x ∈ sortedDesc p, 0 ≤ x := by
  intro x hx
  rcases List.mem_map.mp hx with ⟨k, _, rfl⟩
  exact pget_nonneg p hp k

lemma bhProds_nonneg (p : List ℚ) (hp : ∀ x ∈ p, 0 ≤ x) :
    ∀ x ∈ bhProds p, 0 ≤ x :=
  zipWith_mul_nonneg _ _ (bhSteps_nonneg _) (sortedDesc_nonneg p hp)

lemma q_desc_bounds (p : List ℚ) (hp : ∀ x ∈ p, 0 ≤ x) :
    ∀ y ∈ q_desc p, 0 ≤ y ∧ y ≤ 1 := by
  intro y hy
  rcases List.mem_map.mp hy with ⟨x, hx, rfl⟩
  have hx0 : 0 ≤ x := cummin_nonneg _ (bhProds_nonneg p hp) x hx
  exact ⟨le_min zero_le_one hx0, min_le_left _ _⟩

lemma bhSteps_length (n : ℕ) : (bhSteps n).length = n := by
  simp [bhSteps]

lemma sortedDesc_length (p : List ℚ) : (sortedDesc p).length = p.length := by
  simp [sortedDesc, by_descend_length]

lemma bhProds_length (p : List ℚ) : (bhProds p).length = p.length := by
  simp [bhProds, bhSteps_length, sortedDesc_length]

lemma q_desc_length (p : List ℚ) : (q_desc p).length = p.length := by
  simp [q_desc, cummin_length, bhProds_length]

lemma q_desc_antitone (p : List ℚ) (i j : ℕ) (hij : i ≤ j) (hj : j < p.length) :
    pget (q_desc p) j ≤ pget (q_desc p) i := by
  have hlen : (cummin (bhProds p)).length = p.length := by
    rw [cummin_length, bhProds_length]
  have hjlen : j < (cummin (bhProds p)).length := by rw [hlen]; exact hj
  have hilen : i < (cummin (bhProds p)).length := lt_of_le_of_lt hij hjlen
  simp only [q_desc, pget]
  rw [dget_map 0 0 (fun x => min 1 x) _ _ hjlen, dget_map 0 0 (fun x => min 1 x) _ _ hilen]
  exact min_le_min le_rfl (cummin_antitone _ i j hij (by rw [bhProds_length]; rw [← hlen]; exact hjlen))

lemma by_orig_length (p : List ℚ) : (by_orig p).length = p.length := by
  unfold by_orig
  rw [argsortN_length, by_descend_length]

lemma mem_by_orig (p : List ℚ) (i : ℕ) : i ∈ by_orig p ↔ i < p.length := by
  unfold by_orig
  rw [(argsortN_perm (by_descend p)).mem_iff, List.mem_range, by_descend_length]

lemma p_adjust_bh_unsorts (p : List ℚ) (k : ℕ) (hk : k < p.length) :
    pget (p_adjust_bh p) (nget (by_descend p) k) = pget (q_desc p) k := by
  have hvlt : nget (by_descend p) k < p.length := nget_by_descend_lt p k hk
  have hvlt2 : nget (by_descend p) k < (by_orig p).length := by
    rw [by_orig_length]
    exact hvlt
  have hmap := dget_map 0 0 (fun j => pget (q_desc p) j) (by_orig p)
    (nget (by_descend p) k) hvlt2
  simp only [p_adjust_bh, pget]
  simp only [pget] at hmap
  rw [hmap]
  simp only [nget]
  have hinv := by_orig_inv p k hk
  simp only [nget] at hinv
  rw [hinv]

/-- C6: for every p-value vector with entries in `[0,1]`: every output of
`p_adjust_bh` lies in `[0,1]`; the output has the input's length and the
double argsort un-sorts — the output at the original position of the `k`-th
largest p-value is the `k`-th clamped running-minimum value, i.e. outputs
are returned in original input order; `argsortQ` lists positions in
ascending p-value order; and reading the outputs along that ascending-p
order yields a non-decreasing sequence. -/
theorem p_adjust_bh_spec (p : List ℚ) (hp : ∀ x ∈ p, 0 ≤ x ∧ x ≤ 1) :
    (∀ q ∈ p_adjust_bh p, 0 ≤ q ∧ q ≤ 1) ∧
    ((p_adjust_bh p).length = p.length ∧
      ∀ k, k < p.length →
        pget (p_adjust_bh p) (nget (by_descend p) k) = pget (q_desc p) k) ∧
    (∀ a b, a ≤ b → b < p.length →
      pget p (nget (argsortQ p) a) ≤ pget p (nget (argsortQ p) b)) ∧
    (∀ a b, a ≤ b → b < p.length →
      pget (p_adjust_bh p) (nget (argsortQ p) a) ≤
        pget (p_adjust_bh p) (nget (argsortQ p) b)) := by
  have hp0 : ∀ x ∈ p, 0 ≤ x := fun x hx => (hp x hx).1
  refine ⟨?_, ⟨?_, fun k hk => p_adjust_bh_unsorts p k hk⟩,
    fun a b hab hb => argsortQ_mono p a b hab hb, ?_⟩
  · intro q hq
    simp only [p_adjust_bh] at hq
    rcases List.mem_map.mp hq with ⟨j, hj, rfl⟩
    have hjlt : j < p.length := (mem_by_orig p j).mp hj
    have hjq : j < (q_desc p).length := by rw [q_desc_length]; exact hjlt
    have hmem2 : pget (q_desc p) j ∈ q_desc p := by
      simp only [pget]
      rw [dget_eq_getElem _ _ _ hjq]
      exact List.getElem_mem hjq
    exact q_desc_bounds p hp0 _ hmem2
  · simp [p_adjust_bh, by_orig_length]
  · intro a b hab hb
    have ha : a < p.length := lt_of_le_of_lt hab hb
    have hvala : nget (argsortQ p) a = nget (by_descend p) (p.length - 1 - a) := by
      rw [by_descend_get p (p.length - 1 - a) (by omega)]
      congr 1
      omega
    have hvalb : nget (argsortQ p) b = nget (by_descend p) (p.length - 1 - b) := by
      rw [by_descend_get p (p.length - 1 - b) (by omega)]
      congr 1
      omega
    rw [hvala, hvalb, p_adjust_bh_unsorts p _ (by omega),
      p_adjust_bh_unsorts p _ (by omega)]
    exact q_desc_antitone p (p.length - 1 - b) (p.length - 1 - a) (by omega) (by omega)

/-- Witness for C6 at the concrete p-value vector `[1, 0]`. -/
theorem p_adjust_bh_spec_witness :
    (∀ x ∈ [(1 : ℚ), 0], 0 ≤ x ∧ x ≤ 1) ∧
    ((∀ q ∈ p_adjust_bh [(1 : ℚ), 0], 0 ≤ q ∧ q ≤ 1) ∧
     ((p_adjust_bh [(1 : ℚ), 0]).length = ([(1 : ℚ), 0] : List ℚ).length ∧
       ∀ k, k < ([(1 : ℚ), 0] : List ℚ).length →
         pget (p_adjust_bh [(1 : ℚ), 0]) (nget (by_descend [(1 : ℚ), 0]) k) =
           pget (q_desc [(1 : ℚ), 0]) k) ∧
     (∀ a b, a ≤ b → b < ([(1 : ℚ), 0] : List ℚ).length →
       pget [(1 : ℚ), 0] (nget (argsortQ [(1 : ℚ), 0]) a) ≤
         pget [(1 : ℚ), 0] (nget (argsortQ [(1 : ℚ), 0]) b)) ∧
     (∀ a b, a ≤ b → b < ([(1 : ℚ), 0] : List ℚ).length →
       pget (p_adjust_bh [(1 : ℚ), 0]) (nget (argsortQ [(1 : ℚ), 0]) a) ≤
         pget (p_adjust_bh [(1 : ℚ), 0]) (nget (argsortQ [(1 : ℚ), 0]) b))) :=
  ⟨by decide, p_adjust_bh_spec [(1 : ℚ), 0] (by decide)⟩
